import Mathlib

/-!
Verification of the asset-reference reconciliation scripts
(`scripts/extract-featured-images.py` and `scripts/audit-cloudinary-images.py`).

Python strings are modelled as `List Char` (abbreviated `LC`); Python `dict`s
are modelled as association lists with overwrite-on-insert semantics
(`dinsert` / `dget`), which reproduces `d[k] = v` and `d.get(k)`.
`None`-able values (XML element text) are modelled with `Option`.
-/

abbrev LC := List Char

def lc (s : String) : LC := s.toList

/-- Python `d[k] = v`: overwrite in place if the key exists, else append. -/
def dinsert {α β : Type} [DecidableEq α] (k : α) (v : β) : List (α × β) → List (α × β)
  | [] => [(k, v)]
  | (k', v') :: t => if k' = k then (k', v) :: t else (k', v') :: dinsert k v t

/-- Python `d.get(k)`: `none` when the key is absent. -/
def dget {α β : Type} [DecidableEq α] (k : α) : List (α × β) → Option β
  | [] => none
  | (k', v') :: t => if k' = k then some v' else dget k t

/-- Python `k in d`. -/
def dHasKey {α β : Type} [DecidableEq α] (k : α) (d : List (α × β)) : Prop :=
  (dget k d).isSome

instance {α β : Type} [DecidableEq α] (k : α) (d : List (α × β)) :
    Decidable (dHasKey k d) := by unfold dHasKey; infer_instance

/-- Python `s.split(c)` for a one-character separator: never returns `[]`. -/
def splitChar (c : Char) : LC → List LC
  | [] => [[]]
  | x :: xs =>
    match splitChar c xs with
    | [] => [[]]
    | h :: t => if x = c then [] :: h :: t else (x :: h) :: t

/-- The five recognized image extensions of the scripts, lowercase. -/
def recExts : List LC := [lc ".jpg", lc ".jpeg", lc ".png", lc ".gif", lc ".webp"]

def lowerL (s : LC) : LC := s.map Char.toLower

/-- `e` is a suffix of `l` (exact characters). -/
def endsWithL (e l : LC) : Bool := e.reverse.isPrefixOf l.reverse

/-- `l` ends in one of the five recognized extensions, case-insensitively. -/
def hasRecExt (l : LC) : Bool := recExts.any (fun e => endsWithL e (lowerL l))

/-- Python `re.sub(r'\.(jpg|jpeg|png|gif|webp)$', '', f, flags=IGNORECASE)`:
removes one trailing recognized extension; `$` also matches just before a
final newline, in which case the newline survives. -/
def stripOnce (f : LC) : LC :=
  match recExts.find? (fun e => endsWithL e (lowerL f)) with
  | some e => f.take (f.length - e.length)
  | none =>
    match recExts.find? (fun e => endsWithL (e ++ [Char.ofNat 10]) (lowerL f)) with
    | some e => f.take (f.length - e.length - 1) ++ [Char.ofNat 10]
    | none => f

/-- The final `/`-separated segment of a URL (Python `url.split('/')[-1]`). -/
def lastSeg (url : LC) : LC :=
  match (splitChar '/' url).reverse with
  | f :: _ => f
  | [] => []

/-- Python `re.search(r'/wp-content/uploads/(\d{4})/(\d{2})/([^/]+)$', url)`:
the URL ends in `/wp-content/uploads/<4 digits>/<2 digits>/<segment>` with a
nonempty final segment containing no slash; returns (month, filename). -/
def legacyParse (url : LC) : Option (LC × LC) :=
  match (splitChar '/' url).reverse with
  | f :: m :: y :: u :: w :: _ :: _ =>
    if f ≠ [] ∧ m.length = 2 ∧ m.all Char.isDigit ∧ y.length = 4 ∧ y.all Char.isDigit
        ∧ u = lc "uploads" ∧ w = lc "wp-content"
    then some (m, f) else none
  | _ => none

/-- The public-id derivation of `FeaturedImageExtractor.update_post`
(lines 142–153): month-prefixed basename on the legacy shape, bare stripped
final segment otherwise. -/
def deriveId (url : LC) : LC :=
  match legacyParse url with
  | some (m, f) => m ++ '/' :: stripOnce f
  | none => stripOnce (lastSeg url)

/-- Python `s.split('-', n)`: split on `-` at most `n` times. -/
def pySplitMax (c : Char) : Nat → LC → List LC
  | _, [] => [[]]
  | 0, s => [s]
  | n + 1, x :: xs =>
    if x = c then [] :: pySplitMax c n xs
    else
      match pySplitMax c (n + 1) xs with
      | [] => [[x]]
      | h :: t => (x :: h) :: t

def lastD (l : List LC) : LC := l.getLastD []

/-- Slug derivation from the filename stem (line 129 of
`extract-featured-images.py`): `stem.split('-', 3)[-1] if '-' in stem else stem`. -/
def slugOf (stem : LC) : LC :=
  if '-' ∈ stem then lastD (pySplitMax '-' 3 stem) else stem

/-!
## Legacy export parser (`FeaturedImageExtractor.parse_xml`)

An XML `item` is modelled by the element texts the parser reads.  A field of
type `Option (Option LC)` records element presence (outer `Option`, the
result of `Element.find`) and the element's text (inner `Option`, which
Python's ElementTree reports as `None` for an empty element).
-/

structure PostMeta where
  meta_key : Option (Option LC)
  meta_value : Option (Option LC)
  deriving DecidableEq

structure Item where
  post_type : Option (Option LC)
  post_id : Option (Option LC)
  attachment_url : Option (Option LC)
  title : Option (Option LC)
  post_name : Option (Option LC)
  postmeta : List PostMeta
  deriving DecidableEq

/-- Python dicts whose keys and values are element texts (possibly `None`). -/
abbrev PyDict := List (Option LC × Option LC)

structure ExtractorState where
  attachments : PyDict
  post_thumbnails : PyDict
  deriving DecidableEq

/-- The body of the postmeta loop of `parse_xml` (lines 62–70): on a
`_thumbnail_id` entry with a value element and a present title element, bind
the slug text (when the `wp:post_name` element exists) and then the title
text to the value text. -/
def postBind (it : Item) (d : PyDict) (pm : PostMeta) : PyDict :=
  match pm.meta_key with
  | some kt =>
    if kt = some (lc "_thumbnail_id") then
      match pm.meta_value with
      | some vt =>
        match it.title with
        | some tt =>
          let d1 := match it.post_name with
                    | some nt => dinsert nt vt d
                    | none => d
          dinsert tt vt d1
        | none => d
      | none => d
    else d
  | none => d

/-- Processing of one `item` by `parse_xml` (lines 41–70). -/
def processItem (st : ExtractorState) (it : Item) : ExtractorState :=
  match it.post_type with
  | none => st
  | some pt =>
    if pt = some (lc "attachment") then
      match it.post_id, it.attachment_url with
      | some pid, some au => { st with attachments := dinsert pid au st.attachments }
      | _, _ => st
    else if pt = some (lc "post") then
      { st with post_thumbnails := it.postmeta.foldl (postBind it) st.post_thumbnails }
    else st

def parse_xml (items : List Item) : ExtractorState :=
  items.foldl processItem ⟨[], []⟩

/-- A postmeta entry that actually triggers a binding: marker key matched and
a `wp:meta_value` element present.  Its payload is that element's text. -/
def effectiveMarker (pm : PostMeta) : Option (Option LC) :=
  match pm.meta_key with
  | some kt =>
    if kt = some (lc "_thumbnail_id") then
      match pm.meta_value with
      | some vt => some vt
      | none => none
    else none
  | none => none

/-- The value bound by the last marker entry of a postmeta list, if any. -/
def lastMarker (pms : List PostMeta) : Option (Option LC) :=
  (pms.filterMap effectiveMarker).getLast?

/-!
## Featured-asset resolver (`FeaturedImageExtractor.get_thumbnail_url`)

Python truthiness: `if not thumbnail_id` is taken both when the key is absent
(`get` returned `None`), when the stored value is `None`, and when it is the
empty string.
-/

def pyFalsy : Option LC → Bool
  | none => true
  | some v => v.isEmpty

/-- `get_thumbnail_url` (lines 75–87): slug lookup, title fallback on a falsy
result, then attachment lookup. -/
def get_thumbnail_url (tb att : PyDict) (slug title : LC) : Option LC :=
  let t1 : Option LC := (dget (some slug) tb).bind id
  let tid : Option LC := if pyFalsy t1 then (dget (some title) tb).bind id else t1
  if pyFalsy tid then none
  else (dget tid att).bind id

/-!
## Front-matter mutator (`FeaturedImageExtractor.extract_front_matter` / `update_post`)

`yaml.safe_load` / `yaml.dump` are external library calls (not repository
code); they are modelled for flat mappings of plain scalar strings, the shape
the scripts read and write: one `key: value` line per entry, insertion order
preserved (`sort_keys=False`), blank lines ignored.  A block that does not fit
this shape parses to `none`, matching the mutator's skip of unparseable
metadata.
-/

/-- Index of the first occurrence of `pat` in `s` (Python `re.search` on a
literal pattern). -/
def findSub (pat : LC) : LC → Option Nat
  | [] => if pat.isPrefixOf ([] : LC) then some 0 else none
  | s@(_ :: rest) =>
    if pat.isPrefixOf s then some 0 else (findSub pat rest).map (· + 1)

/-- `pat` occurs somewhere in `s`. -/
def hasSubB (pat : LC) : LC → Bool
  | [] => pat.isPrefixOf ([] : LC)
  | s@(_ :: rest) => pat.isPrefixOf s || hasSubB pat rest

/-- Split `s` around the first occurrence of `pat`; `none` if absent. -/
def splitAtSub (pat : LC) : LC → Option (LC × LC)
  | [] => if pat.isPrefixOf ([] : LC) then some ([], []) else none
  | s@(c :: rest) =>
    if pat.isPrefixOf s then some ([], s.drop pat.length)
    else (splitAtSub pat rest).map (fun p => (c :: p.1, p.2))

/-- A metadata block: ordered mapping of scalar keys to scalar values. -/
abbrev FM := List (LC × LC)

def colonSp : LC := lc ": "

def nlChar : Char := Char.ofNat 10

/-- Mini-YAML load: one `key: value` entry per nonempty line, later duplicate
keys overwriting earlier ones (dict semantics of `yaml.safe_load`). -/
def parseYaml (y : LC) : Option FM :=
  (splitChar nlChar y).foldlM (fun d line =>
    if line.isEmpty then some d
    else (splitAtSub colonSp line).map (fun p => dinsert p.1 p.2 d)) []

/-- Mini-YAML dump with `sort_keys=False`: one `key: value` line per entry in
insertion order. -/
def lineOf (e : LC × LC) : LC := e.1 ++ colonSp ++ e.2

def joinNL (ls : List LC) : LC := ls.foldr (fun l acc => l ++ nlChar :: acc) []

def dumpYaml (fm : FM) : LC := joinNL (fm.map lineOf)

def fmFence : LC := lc "---"

def fmMarker : LC := lc "\n---\n"

/-- `extract_front_matter` (lines 89–107): leading `---` fence, block up to
the first `\n---\n`, parsed body after it; `(none, content)` on any failure. -/
def extract_front_matter (content : LC) : Option FM × LC :=
  if fmFence.isPrefixOf content then
    let s := content.drop 3
    match findSub fmMarker s with
    | some i =>
      match parseYaml (s.take i) with
      | some fm => (some fm, s.drop (i + 5))
      | none => (none, content)
    | none => (none, content)
  else (none, content)

def featuredKey : LC := lc "featured_image"

def imageKey : LC := lc "image"

def titleKey : LC := lc "title"

def fmHasKey (fm : FM) (k : LC) : Bool := fm.any (fun e => decide (e.1 = k))

def fmGetD (fm : FM) (k : LC) (d : LC) : LC :=
  match fm.find? (fun e => decide (e.1 = k)) with
  | some e => e.2
  | none => d

/-- `update_post` (lines 109–170) on a document with filename stem `stem` and
raw content `content`; returns (updated?, resulting file content), the
content being unchanged whenever the document is skipped (no write). -/
def update_post (tb att : PyDict) (stem content : LC) : Bool × LC :=
  match extract_front_matter content with
  | (none, _) => (false, content)
  | (some fm, body) =>
    if fm.isEmpty then (false, content)
    else if fmHasKey fm featuredKey || fmHasKey fm imageKey then (false, content)
    else
      let slug := slugOf stem
      let title := fmGetD fm titleKey []
      match get_thumbnail_url tb att slug title with
      | none => (false, content)
      | some url =>
        if url.isEmpty then (false, content)
        else
          let pid := deriveId url
          (true, fmFence ++ nlChar :: dumpYaml (dinsert featuredKey pid fm)
                   ++ fmFence ++ [nlChar] ++ body)

/-!
## Remote inventory fetcher (`CloudinaryAuditor.fetch_cloudinary_assets`)

The remote host is modelled as the sequence of responses the pagination loop
receives: each is either a page (resources plus optional continuation token)
or a raised transport exception.  The loop requests another response exactly
when the previous page carried a token, so a well-formed trace ends with a
tokenless page or an error.
-/

structure Page where
  resources : List LC
  next_cursor : Option LC
  deriving DecidableEq

inductive FetchRes
  | done (rs : List LC)
  | caught
  | outOfTrace
  deriving DecidableEq

/-- The `while True` pagination loop (lines 44–62) consuming the response
trace; an error response reproduces the `except Exception` handler. -/
def fetchGo : List (Except Unit Page) → List LC → FetchRes
  | [], _ => .outOfTrace
  | (.error _) :: _, _ => .caught
  | (.ok p) :: rest, acc =>
    match p.next_cursor with
    | none => .done (acc ++ p.resources)
    | some _ => fetchGo rest (acc ++ p.resources)

/-- The final value of `self.cloudinary_images`: the deduplicated public-id
set on success, and the untouched initial empty set when the exception was
caught (the partially fetched `resources` list is discarded). -/
def fetch_cloudinary_assets (responses : List (Except Unit Page)) : List LC :=
  match fetchGo responses [] with
  | .done rs => rs.dedup
  | .caught => []
  | .outOfTrace => []

/-!
## Reference extractor (`CloudinaryAuditor.extract_cloudinary_references`)

The regex
`https://res\.cloudinary\.com/circleseven/image/upload/[^/]+/(.+?)(?:["\s<>]|$)`
is executed literally: after the fixed prefix, a nonempty slash-free
transformation segment, a slash, then a lazy capture stopped at the first
quote/whitespace/angle-bracket or end of input (`.` never matches a newline).
-/

def cloudLit : LC := lc "https://res.cloudinary.com/circleseven/image/upload/"

/-- The characters of the regex class `["\s<>]` (ASCII `\s`). -/
def refDelims : List Char :=
  [Char.ofNat 34, ' ', Char.ofNat 9, nlChar, Char.ofNat 13, Char.ofNat 11, Char.ofNat 12, '<', '>']

/-- Attempt the part of the pattern after the literal prefix at the current
position; on success returns (captured id, rest of input after the match). -/
def tryMatch (t : LC) : Option (LC × LC) :=
  let a := t.takeWhile (fun c => decide (c ≠ '/'))
  if a.isEmpty then none
  else
    match t.drop a.length with
    | [] => none
    | sl :: u =>
      if sl ≠ '/' then none
      else
        match u with
        | [] => none
        | c :: cs =>
          if c = nlChar then none
          else
            let cap := c :: cs.takeWhile (fun d => decide (d ∉ refDelims))
            let rest := cs.drop (cap.length - 1)
            match rest with
            | d :: r => if d ∈ refDelims then some (cap, r) else some (cap, rest)
            | [] => some (cap, [])

/-- `re.findall` of the reference pattern, fuelled by the input length. -/
def findAllAux : Nat → LC → List LC
  | 0, _ => []
  | fuel + 1, s =>
    match s with
    | [] => []
    | _ :: rest =>
      if cloudLit.isPrefixOf s then
        match tryMatch (s.drop cloudLit.length) with
        | some (pid, remaining) => pid :: findAllAux fuel remaining
        | none => findAllAux fuel rest
      else findAllAux fuel rest

def findRefs (body : LC) : List LC := findAllAux body.length body

/-- Python `s.strip('"\' ')`. -/
def stripQuoteSet : List Char := [Char.ofNat 34, Char.ofNat 39, ' ']

def pyStrip (s : LC) : LC :=
  ((s.dropWhile (fun c => decide (c ∈ stripQuoteSet))).reverse.dropWhile
    (fun c => decide (c ∈ stripQuoteSet))).reverse

/-- `defaultdict(list)` append: extend the entry in place, else append a new
one (insertion order = first occurrence of the key). -/
def indexAdd (k v : LC) : List (LC × List LC) → List (LC × List LC)
  | [] => [(k, [v])]
  | (k', vs) :: t => if k' = k then (k', vs ++ [v]) :: t else (k', vs) :: indexAdd k v t

/-- `extract_cloudinary_references` (lines 73–98) over a corpus of
(document name, body) pairs: one `append` per regex match. -/
def extract_cloudinary_references (docs : List (LC × LC)) : List (LC × List LC) :=
  docs.foldl (fun idx doc =>
    (findRefs doc.2).foldl (fun i pid => indexAdd (pyStrip pid) doc.1 i) idx) []

/-- The document sequence recorded for `id`, `[]` when absent. -/
def idxGet : List (LC × List LC) → LC → List LC
  | [], _ => []
  | e :: t, x => if e.1 = x then e.2 else idxGet t x

/-!
## Reconciliation engine (`find_missing_images` / `find_unused_images`)
-/

def find_missing_images (refs : List (LC × List LC)) (inv : List LC) :
    List (LC × List LC) :=
  refs.filter (fun e => decide (e.1 ∉ inv))

def find_unused_images (refs : List (LC × List LC)) (inv : List LC) : List LC :=
  inv.dedup.filter (fun x => decide (∀ e ∈ refs, e.1 ≠ x))

structure Report where
  inventory : List LC
  missing : List (LC × List LC)
  unused : List LC
  deriving DecidableEq

/-- `CloudinaryAuditor.run` (lines 161–169): the audit always proceeds from
fetch through reconciliation, whatever `fetch_cloudinary_assets` left behind. -/
def audit_run (responses : List (Except Unit Page)) (docs : List (LC × LC)) : Report :=
  let inv := fetch_cloudinary_assets responses
  let refs := extract_cloudinary_references docs
  ⟨inv, find_missing_images refs inv, find_unused_images refs inv⟩

instance : DecidableEq (Except Unit Page) := fun a b => by
  cases a with
  | ok x =>
    cases b with
    | ok y =>
      exact decidable_of_iff (x = y) ⟨fun h => by rw [h], fun h => by injection h⟩
    | error f => exact isFalse (fun h => by injection h)
  | error e =>
    cases b with
    | ok y => exact isFalse (fun h => by injection h)
    | error f => exact decidable_of_iff (e = f) ⟨fun h => by rw [h], fun h => by injection h⟩

def countL (x : LC) : List LC → Nat
  | [] => 0
  | y :: t => (if y = x then 1 else 0) + countL x t

/-- Declarative reading of the index builder: each document contributes its
name once per matching reference, documents in corpus order. -/
def mentionsOf (docs : List (LC × LC)) (x : LC) : List LC :=
  docs.foldr (fun d acc =>
    List.replicate (countL x ((findRefs d.2).map pyStrip)) d.1 ++ acc) []

/-- The dumped lines joined by newline separators, without the trailing one. -/
def interNL : List LC → LC
  | [] => []
  | [l] => l
  | l :: ls => l ++ nlChar :: interNL ls

/-! ## Dictionary lemmas -/

theorem dget_dinsert_self {α β : Type} [DecidableEq α] (k : α) (v : β)
    (d : List (α × β)) : dget k (dinsert k v d) = some v := by
  induction d with
  | nil => simp [dinsert, dget]
  | cons e t ih =>
    by_cases h : e.1 = k
    · simp [dinsert, dget, h]
    · simp [dinsert, dget, h, ih]

theorem dget_dinsert_ne {α β : Type} [DecidableEq α] {k k' : α} (v : β)
    (d : List (α × β)) (h : k' ≠ k) : dget k' (dinsert k v d) = dget k' d := by
  have hk : ¬ (k = k') := fun hh => h hh.symm
  induction d with
  | nil => simp [dinsert, dget, hk]
  | cons e t ih =>
    by_cases he : e.1 = k
    · have he'' : ¬ (e.1 = k') := by rw [he]; exact hk
      simp [dinsert, dget, he, he'', hk]
    · by_cases he' : e.1 = k'
      · simp [dinsert, dget, he, he', h]
      · simp [dinsert, dget, he, he', ih]

theorem mem_dinsert {α β : Type} [DecidableEq α] {k : α} {v : β}
    {d : List (α × β)} {e : α × β} (h : e ∈ dinsert k v d) :
    e = (k, v) ∨ e ∈ d := by
  induction d with
  | nil => simpa [dinsert] using h
  | cons e' t ih =>
    by_cases he : e'.1 = k
    · rcases (by simpa [dinsert, he] using h) with h1 | h1
      · exact Or.inl (by simp [h1, ← he])
      · exact Or.inr (List.mem_cons_of_mem _ h1)
    · rcases (by simpa [dinsert, he] using h) with h1 | h1
      · exact Or.inr (by simp [h1])
      · rcases ih h1 with h2 | h2
        · exact Or.inl h2
        · exact Or.inr (List.mem_cons_of_mem _ h2)

theorem dinsert_of_not_mem {α β : Type} [DecidableEq α] {k : α} (v : β)
    {d : List (α × β)} (h : ∀ e ∈ d, e.1 ≠ k) : dinsert k v d = d ++ [(k, v)] := by
  induction d with
  | nil => simp [dinsert]
  | cons e t ih =>
    have h1 : e.1 ≠ k := h e (List.mem_cons_self _ _)
    simp [dinsert, h1, ih (fun e' he' => h e' (List.mem_cons_of_mem _ he'))]

theorem keys_dinsert {α β : Type} [DecidableEq α] {k x : α} {v : β}
    {d : List (α × β)} (h : x ∈ (dinsert k v d).map Prod.fst) :
    x = k ∨ x ∈ d.map Prod.fst := by
  rcases List.mem_map.mp h with ⟨e, he, hx⟩
  rcases mem_dinsert he with h1 | h1
  · exact Or.inl (by rw [← hx, h1])
  · exact Or.inr (List.mem_map.mpr ⟨e, h1, hx⟩)

theorem nodupKeys_dinsert {α β : Type} [DecidableEq α] (k : α) (v : β)
    (d : List (α × β)) (h : (d.map Prod.fst).Nodup) :
    ((dinsert k v d).map Prod.fst).Nodup := by
  induction d with
  | nil => simp [dinsert]
  | cons e t ih =>
    rw [List.map_cons, List.nodup_cons] at h
    obtain ⟨hnotin, hnd⟩ := h
    by_cases he : e.1 = k
    · rw [show dinsert k v (e :: t) = (e.1, v) :: t from by simp [dinsert, he]]
      rw [List.map_cons, List.nodup_cons]
      exact ⟨hnotin, hnd⟩
    · rw [show dinsert k v (e :: t) = e :: dinsert k v t from by simp [dinsert, he]]
      rw [List.map_cons, List.nodup_cons]
      refine ⟨fun hmem => ?_, ih hnd⟩
      rcases keys_dinsert hmem with h1 | h1
      · exact he h1
      · exact hnotin h1

/-! ## Lemmas for claim C10 -/

theorem pySplitMax_zero (c : Char) (s : LC) : pySplitMax c 0 s = [s] := by
  cases s <;> rfl

theorem pySplitMax_step (c : Char) (a : LC) (n : Nat) (t : LC) (h : c ∉ a) :
    pySplitMax c (n + 1) (a ++ c :: t) = a :: pySplitMax c n t := by
  induction a with
  | nil => simp [pySplitMax]
  | cons x a' ih =>
    have hx : ¬ (x = c) := fun hh => h (by rw [hh]; exact List.mem_cons_self _ _)
    have h' : c ∉ a' := fun hh => h (List.mem_cons_of_mem _ hh)
    simp only [List.cons_append, pySplitMax, hx, if_false, List.append_eq]
    rw [ih h']

/-- C10: the slug handed to the resolver is the filename stem when it has no
hyphen; with a hyphen, it is the last piece after splitting on at most the
first three hyphens, so a `YYYY-MM-DD-` date carrier is removed. -/
theorem c10_slug_from_stem :
    (∀ a b c r : LC, '-' ∉ a → '-' ∉ b → '-' ∉ c →
      slugOf (a ++ '-' :: (b ++ '-' :: (c ++ '-' :: r))) = r) ∧
    (∀ s : LC, '-' ∉ s → slugOf s = s) := by
  constructor
  · intro a b c r _ hb hc
    have hmem : '-' ∈ a ++ '-' :: (b ++ '-' :: (c ++ '-' :: r)) :=
      List.mem_append_right _ (List.mem_cons_self _ _)
    rw [slugOf, if_pos hmem]
    rw [show pySplitMax '-' 3 (a ++ '-' :: (b ++ '-' :: (c ++ '-' :: r))) =
        a :: pySplitMax '-' 2 (b ++ '-' :: (c ++ '-' :: r)) from
      pySplitMax_step '-' a 2 _ (by assumption)]
    rw [pySplitMax_step '-' b 1 _ hb, pySplitMax_step '-' c 0 _ hc, pySplitMax_zero]
    rfl
  · intro s h
    rw [slugOf, if_neg h]

theorem c10_witness :
    slugOf (lc "2021-07-15-my-post") = lc "my-post" ∧ slugOf (lc "post") = lc "post" := by
  constructor
  · have h := c10_slug_from_stem.1 (lc "2021") (lc "07") (lc "15") (lc "my-post")
      (by decide) (by decide) (by decide)
    have e : lc "2021" ++ '-' :: (lc "07" ++ '-' :: (lc "15" ++ '-' :: lc "my-post")) =
        lc "2021-07-15-my-post" := by decide
    rw [e] at h
    exact h
  · exact c10_slug_from_stem.2 (lc "post") (by decide)

/-! ## Claim C9 -/

/-- C9: reconciliation laws — `missing` is disjoint from the inventory,
`unused` is disjoint from the referenced keys, and the referenced keys are
exactly the missing ones together with the referenced keys present in the
inventory; all by exact character-list equality. -/
theorem c9_reconciliation_laws (refs : List (LC × List LC)) (inv : List LC) :
    (∀ e ∈ find_missing_images refs inv, e.1 ∉ inv) ∧
    (∀ x ∈ find_unused_images refs inv, ∀ e ∈ refs, e.1 ≠ x) ∧
    (∀ x : LC, (∃ e ∈ refs, e.1 = x) ↔
      ((∃ e ∈ find_missing_images refs inv, e.1 = x) ∨
        ((∃ e ∈ refs, e.1 = x) ∧ x ∈ inv))) := by
  refine ⟨?_, ?_, ?_⟩
  · intro e he
    have hm := List.mem_filter.mp he
    simpa using hm.2
  · intro x hx e he
    have hm := List.mem_filter.mp hx
    exact of_decide_eq_true hm.2 e he
  · intro x
    constructor
    · rintro ⟨e, he, hex⟩
      by_cases hxi : x ∈ inv
      · exact Or.inr ⟨⟨e, he, hex⟩, hxi⟩
      · refine Or.inl ⟨e, List.mem_filter.mpr ⟨he, ?_⟩, hex⟩
        rw [hex]
        exact decide_eq_true hxi
    · rintro (⟨e, he, hex⟩ | ⟨h1, _⟩)
      · exact ⟨e, (List.mem_filter.mp he).1, hex⟩
      · exact h1

theorem c9_witness :
    (lc "a" ∉ [lc "b"]) ∧ (∀ e ∈ [(lc "a", [lc "p"])], e.1 ≠ lc "b") := by
  have h1 := (c9_reconciliation_laws [(lc "a", [lc "p"])] [lc "b"]).1
      (lc "a", [lc "p"]) (by decide)
  have h2 := (c9_reconciliation_laws [(lc "a", [lc "p"])] [lc "b"]).2.1 (lc "b") (by decide)
  exact ⟨h1, h2⟩

/-! ## Lemmas for claim C1 -/

theorem postBind_of_title {it : Item} {tt : Option LC} (htt : it.title = some tt)
    (d : PyDict) (pm : PostMeta) :
    postBind it d pm =
      (match effectiveMarker pm with
       | some vt =>
         dinsert tt vt (match it.post_name with
                        | some nt => dinsert nt vt d
                        | none => d)
       | none => d) := by
  rw [postBind, effectiveMarker]
  cases hk : pm.meta_key with
  | none => rfl
  | some kt =>
    by_cases hkt : kt = some (lc "_thumbnail_id")
    · cases hv : pm.meta_value with
      | none => simp [hkt]
      | some vt => simp [hkt, htt]
    · simp [hkt]

theorem foldl_postBind_noMarker {it : Item} :
    ∀ (pms : List PostMeta) (d : PyDict), pms.filterMap effectiveMarker = [] →
      pms.foldl (postBind it) d = d := by
  intro pms
  induction pms with
  | nil => intro d _; rfl
  | cons pm rest ih =>
    intro d h
    rw [List.filterMap_cons] at h
    cases hm : effectiveMarker pm with
    | none =>
      rw [hm] at h
      have hb : postBind it d pm = d := by
        rw [postBind]
        rw [effectiveMarker] at hm
        cases hk : pm.meta_key with
        | none => rfl
        | some kt =>
          rw [hk] at hm
          by_cases hkt : kt = some (lc "_thumbnail_id")
          · cases hv : pm.meta_value with
            | none => simp [hkt]
            | some vt => rw [hv] at hm; simp [hkt] at hm
          · simp [hkt]
      rw [List.foldl_cons, hb]
      exact ih d h
    | some v => rw [hm] at h; exact absurd h (by simp)

theorem foldl_postBind_last {it : Item} {tt : Option LC} (htt : it.title = some tt) :
    ∀ (pms : List PostMeta) (d : PyDict) (vt : Option LC),
      lastMarker pms = some vt →
      dget tt (pms.foldl (postBind it) d) = some vt ∧
      ∀ nt, it.post_name = some nt →
        dget nt (pms.foldl (postBind it) d) = some vt := by
  intro pms
  induction pms with
  | nil => intro d vt h; exact absurd h (by simp [lastMarker])
  | cons pm rest ih =>
    intro d vt h
    cases hrest : rest.filterMap effectiveMarker with
    | nil =>
      cases hm : effectiveMarker pm with
      | none =>
        exfalso
        rw [lastMarker, List.filterMap_cons, hm, hrest] at h
        simp at h
      | some v0 =>
        rw [lastMarker, List.filterMap_cons, hm, hrest] at h
        have hv : v0 = vt := by simpa using h
        subst hv
        rw [List.foldl_cons, foldl_postBind_noMarker rest _ hrest]
        rw [postBind_of_title htt, hm]
        constructor
        · exact dget_dinsert_self ..
        · intro nt hnt
          rw [hnt]
          by_cases hne : nt = tt
          · rw [hne]; exact dget_dinsert_self ..
          · rw [dget_dinsert_ne _ _ hne]
            exact dget_dinsert_self ..
    | cons v0 vs =>
      have hlast : lastMarker rest = some vt := by
        rw [lastMarker, List.filterMap_cons] at h
        rw [lastMarker]
        cases hm : effectiveMarker pm with
        | none => rw [hm] at h; exact h
        | some v1 =>
          rw [hm, hrest] at h
          rw [hrest]
          simpa [List.getLast?_cons_cons] using h
      rw [List.foldl_cons]
      exact ih _ vt hlast

/-- C1 counterexample: a `post` item carrying the `_thumbnail_id` marker with
value `"42"` and a slug element (`wp:post_name` text `"s"`) but NO title
element yields no binding at all, whereas the claim demands a slug binding
independent of title presence. -/
theorem c1_counterexample :
    (parse_xml [⟨some (some (lc "post")), none, none, none, some (some (lc "s")),
      [⟨some (some (lc "_thumbnail_id")), some (some (lc "42"))⟩]⟩]).post_thumbnails
      = [] := by decide

/-- C1 amended: for a `post` record whose `title` element is present, the
parser binds the title text and — when a `wp:post_name` element is present —
the slug text, both to the value of the last marker entry; without a title
element nothing is bound. -/
theorem c1_bindings_with_title (st : ExtractorState) (it : Item) (tt vt : Option LC)
    (hpt : it.post_type = some (some (lc "post")))
    (htt : it.title = some tt)
    (hmk : lastMarker it.postmeta = some vt) :
    dget tt (processItem st it).post_thumbnails = some vt ∧
    ∀ nt, it.post_name = some nt →
      dget nt (processItem st it).post_thumbnails = some vt := by
  have hproc : processItem st it =
      { st with post_thumbnails := it.postmeta.foldl (postBind it) st.post_thumbnails } := by
    rw [processItem, hpt]
    dsimp only
    rw [if_neg (by decide : ¬ ((some (lc "post") : Option LC) = some (lc "attachment")))]
    rw [if_pos rfl]
  rw [hproc]
  exact foldl_postBind_last htt it.postmeta st.post_thumbnails vt hmk

theorem c1_witness :
    dget (some (lc "t"))
      (processItem ⟨[], []⟩ ⟨some (some (lc "post")), none, none, some (some (lc "t")),
        some (some (lc "s")),
        [⟨some (some (lc "_thumbnail_id")), some (some (lc "42"))⟩]⟩).post_thumbnails
      = some (some (lc "42")) ∧
    dget (some (lc "s"))
      (processItem ⟨[], []⟩ ⟨some (some (lc "post")), none, none, some (some (lc "t")),
        some (some (lc "s")),
        [⟨some (some (lc "_thumbnail_id")), some (some (lc "42"))⟩]⟩).post_thumbnails
      = some (some (lc "42")) := by
  have h := c1_bindings_with_title ⟨[], []⟩
    ⟨some (some (lc "post")), none, none, some (some (lc "t")), some (some (lc "s")),
      [⟨some (some (lc "_thumbnail_id")), some (some (lc "42"))⟩]⟩
    (some (lc "t")) (some (lc "42")) rfl rfl (by decide)
  exact ⟨h.1, h.2 (some (lc "s")) rfl⟩

/-! ## Claim C4 -/

/-- C4 counterexample: a bindings table produced when a marker's value element
is empty (slug `"s"` bound to `None`) alongside title `"t"` bound to `"42"`:
both keys are present with different bound ids, yet the resolver answers
through the title binding (`u42`), not through the slug binding (which would
resolve to nothing). -/
theorem c4_counterexample :
    dHasKey (some (lc "s"))
        [((some (lc "s") : Option LC), (none : Option LC)), (some (lc "t"), some (lc "42"))] ∧
    dHasKey (some (lc "t"))
        [((some (lc "s") : Option LC), (none : Option LC)), (some (lc "t"), some (lc "42"))] ∧
    dget (some (lc "s"))
        [((some (lc "s") : Option LC), (none : Option LC)), (some (lc "t"), some (lc "42"))] ≠
      dget (some (lc "t"))
        [((some (lc "s") : Option LC), (none : Option LC)), (some (lc "t"), some (lc "42"))] ∧
    get_thumbnail_url
        [((some (lc "s") : Option LC), (none : Option LC)), (some (lc "t"), some (lc "42"))]
        [(some (lc "42"), some (lc "u42"))] (lc "s") (lc "t") = some (lc "u42") ∧
    (dget ((dget (some (lc "s"))
        [((some (lc "s") : Option LC), (none : Option LC)),
          (some (lc "t"), some (lc "42"))]).bind id)
      [((some (lc "42") : Option LC), (some (lc "u42") : Option LC))]).bind id = none := by
  decide

/-- C4 amended: the slug binding wins whenever it holds a truthy (nonempty)
attachment id; the title binding is consulted only when the slug lookup is
falsy — key absent, value `None`, or value empty. -/
theorem c4_slug_priority (tb att : PyDict) (slug title : LC) (v : LC)
    (h : (dget (some slug) tb).bind id = some v) (hv : v ≠ []) :
    get_thumbnail_url tb att slug title = (dget (some v) att).bind id := by
  obtain ⟨c, t, rfl⟩ := List.exists_cons_of_ne_nil hv
  rw [get_thumbnail_url]
  simp only [h]
  rfl

theorem c4_witness :
    get_thumbnail_url [(some (lc "s"), some (lc "7"))] [(some (lc "7"), some (lc "u"))]
      (lc "s") (lc "t") = some (lc "u") := by
  have h := c4_slug_priority [(some (lc "s"), some (lc "7"))] [(some (lc "7"), some (lc "u"))]
      (lc "s") (lc "t") (lc "7") (by decide) (by decide)
  rw [h]
  decide

/-! ## Claim C2 -/

theorem fetchGo_error (rest : List (Except Unit Page)) :
    ∀ (pre : List Page) (acc : List LC), (∀ p ∈ pre, p.next_cursor.isSome) →
      fetchGo (pre.map Except.ok ++ Except.error () :: rest) acc = FetchRes.caught := by
  intro pre
  induction pre with
  | nil => intro acc _; rfl
  | cons p pre' ih =>
    intro acc hp
    obtain ⟨c, hc⟩ := Option.isSome_iff_exists.mp (hp p (List.mem_cons_self _ _))
    rw [List.map_cons, List.cons_append]
    simp only [fetchGo, hc]
    exact ih _ (fun q hq => hp q (List.mem_cons_of_mem _ hq))

theorem find_missing_empty_inv (refs : List (LC × List LC)) :
    find_missing_images refs [] = refs := by
  induction refs with
  | nil => rfl
  | cons e t ih =>
    rw [find_missing_images, List.filter_cons]
    rw [find_missing_images] at ih
    simp [ih, List.not_mem_nil]

/-- C2 counterexample: in a run whose second page request raises a transport
failure, the asset `a` appears on the successfully fetched first page and is
referenced by `p.md`, yet the audit still produces a reconciliation report —
computed against the discarded (empty) inventory — listing `a` as missing.
The failure is swallowed, not surfaced; the caller proceeds with fewer
(zero) assets instead of treating the audit as unavailable. -/
theorem c2_counterexample :
    Except.ok (⟨[lc "a"], some (lc "c")⟩ : Page) ∈
        ([Except.ok ⟨[lc "a"], some (lc "c")⟩, Except.error ()] :
          List (Except Unit Page)) ∧
    lc "a" ∈ (⟨[lc "a"], some (lc "c")⟩ : Page).resources ∧
    (lc "a", [lc "p.md"]) ∈
      (audit_run [Except.ok ⟨[lc "a"], some (lc "c")⟩, Except.error ()]
        [(lc "p.md",
          lc "https://res.cloudinary.com/circleseven/image/upload/w/a x")]).missing := by
  decide

/-- C2 amended: a transport failure mid-pagination aborts the loop and the
partially fetched pages are discarded (the inventory keeps its initial empty
value), but the exception is caught and the audit pipeline proceeds with the
empty inventory — reporting every referenced asset as missing — instead of
surfacing the failure as an unavailable audit. -/
theorem c2_failure_swallowed (pre : List Page) (rest : List (Except Unit Page))
    (docs : List (LC × LC)) (hpre : ∀ p ∈ pre, p.next_cursor.isSome) :
    fetch_cloudinary_assets (pre.map Except.ok ++ Except.error () :: rest) = [] ∧
    audit_run (pre.map Except.ok ++ Except.error () :: rest) docs =
      ⟨[], extract_cloudinary_references docs, []⟩ := by
  have hgo := fetchGo_error rest pre [] hpre
  have hfetch : fetch_cloudinary_assets (pre.map Except.ok ++ Except.error () :: rest) = [] := by
    rw [fetch_cloudinary_assets, hgo]
  refine ⟨hfetch, ?_⟩
  simp only [audit_run, hfetch]
  rw [find_missing_empty_inv]
  simp [find_unused_images]

theorem c2_witness :
    fetch_cloudinary_assets
      ([(⟨[lc "a"], some (lc "c")⟩ : Page)].map Except.ok ++ Except.error () :: []) = [] ∧
    audit_run ([(⟨[lc "a"], some (lc "c")⟩ : Page)].map Except.ok ++ Except.error () :: [])
        [(lc "p.md", lc "https://res.cloudinary.com/circleseven/image/upload/w/a x")] =
      ⟨[], extract_cloudinary_references
        [(lc "p.md", lc "https://res.cloudinary.com/circleseven/image/upload/w/a x")], []⟩ :=
  c2_failure_swallowed [⟨[lc "a"], some (lc "c")⟩] []
    [(lc "p.md", lc "https://res.cloudinary.com/circleseven/image/upload/w/a x")]
    (by decide)

/-! ## Claim C3 -/

theorem idxGet_indexAdd (idx : List (LC × List LC)) (k v x : LC) :
    idxGet (indexAdd k v idx) x = idxGet idx x ++ (if k = x then [v] else []) := by
  induction idx with
  | nil => by_cases h : k = x <;> simp [indexAdd, idxGet, h]
  | cons e t ih =>
    by_cases he : e.1 = k
    · by_cases hex : e.1 = x
      · have hkx : k = x := by rw [← he, hex]
        simp [indexAdd, idxGet, he, hex, hkx]
      · have hkx : ¬ (k = x) := fun hh => hex (by rw [he, hh])
        simp [indexAdd, idxGet, he, hex, hkx]
    · by_cases hex : e.1 = x
      · have hkx : ¬ (k = x) := fun hh => he (hex.trans hh.symm)
        have hxk : ¬ (x = k) := fun hh => hkx hh.symm
        simp [indexAdd, idxGet, he, hex, hkx, hxk]
      · simp [indexAdd, idxGet, he, hex, ih]

theorem idxGet_foldl_doc (name x : LC) :
    ∀ (pids : List LC) (idx : List (LC × List LC)),
      idxGet (pids.foldl (fun i pid => indexAdd (pyStrip pid) name i) idx) x =
        idxGet idx x ++ List.replicate (countL x (pids.map pyStrip)) name := by
  intro pids
  induction pids with
  | nil => intro idx; simp [countL]
  | cons p ps ih =>
    intro idx
    rw [List.foldl_cons, ih, idxGet_indexAdd, List.map_cons, countL]
    by_cases h : pyStrip p = x
    · simp [h, List.replicate_succ, List.append_assoc, Nat.add_comm]
    · simp [h]

theorem idxGet_extract_fold (x : LC) :
    ∀ (docs : List (LC × LC)) (idx : List (LC × List LC)),
      idxGet (docs.foldl (fun idx doc => (findRefs doc.2).foldl
          (fun i pid => indexAdd (pyStrip pid) doc.1 i) idx) idx) x =
        idxGet idx x ++ mentionsOf docs x := by
  intro docs
  induction docs with
  | nil => intro idx; simp [mentionsOf]
  | cons d ds ih =>
    intro idx
    rw [List.foldl_cons, ih, idxGet_foldl_doc]
    simp [mentionsOf, List.append_assoc]

/-- C3 counterexample: one document mentioning the same canonical id twice;
its name is recorded twice in that id's document sequence, not folded to a
single document-mention as the claim states. -/
theorem c3_counterexample :
    idxGet (extract_cloudinary_references
      [(lc "p.md",
        lc "https://res.cloudinary.com/circleseven/image/upload/w/pic https://res.cloudinary.com/circleseven/image/upload/w/pic")])
      (lc "pic") = [lc "p.md", lc "p.md"] := by decide

/-- C3 amended: the document sequence recorded for an id is one entry per
regex match — duplicate mentions inside one document each contribute a
separate mention of that document, and mentions across distinct documents
are all preserved, in corpus order. -/
theorem c3_per_match_mentions (docs : List (LC × LC)) (x : LC) :
    idxGet (extract_cloudinary_references docs) x = mentionsOf docs x := by
  rw [extract_cloudinary_references, idxGet_extract_fold]
  rfl

/-! ## splitChar lemmas -/

theorem splitChar_ne_nil (c : Char) : ∀ l : LC, splitChar c l ≠ [] := by
  intro l
  cases l with
  | nil => simp [splitChar]
  | cons x xs =>
    simp only [splitChar]
    rcases h : splitChar c xs with _ | ⟨hh, tt⟩
    · simp
    · by_cases hx : x = c <;> simp [hx]

theorem splitChar_no_sep (c : Char) : ∀ l : LC, c ∉ l → splitChar c l = [l] := by
  intro l
  induction l with
  | nil => intro _; rfl
  | cons x xs ih =>
    intro h
    have hx : ¬ (x = c) := fun hh => h (by rw [hh]; exact List.mem_cons_self _ _)
    have h' : c ∉ xs := fun hh => h (List.mem_cons_of_mem _ hh)
    simp only [splitChar, ih h']
    simp [hx]

theorem splitChar_append (c : Char) : ∀ (a b : LC),
    splitChar c (a ++ c :: b) = splitChar c a ++ splitChar c b := by
  intro a b
  induction a with
  | nil =>
    rcases h : splitChar c b with _ | ⟨hh, tt⟩
    · exact absurd h (splitChar_ne_nil c b)
    · simp only [List.nil_append, splitChar, h]
      simp
  | cons x a' ih =>
    rcases ha : splitChar c a' with _ | ⟨h', t'⟩
    · exact absurd ha (splitChar_ne_nil c a')
    · simp only [List.cons_append, splitChar, List.append_eq]
      rw [ih, ha]
      by_cases hx : x = c <;> simp [hx]

theorem not_slash_of_digits {y : LC} (h : y.all Char.isDigit = true) : '/' ∉ y := by
  intro hm
  have hd := List.all_eq_true.mp h _ hm
  exact absurd hd (by decide)

/-! ## Claim C5 -/

/-- C5: on a URL ending in the structured legacy shape
`/wp-content/uploads/<4-digit year>/<2-digit month>/<filename>` (nonempty
slash-free filename), the derived id is `<month>/<basename>` with one
trailing recognized extension stripped case-insensitively from the filename;
on any URL the shape does not match, the id is the final path segment with
the extension stripped and no bucket prefix. -/
theorem c5_derive_shapes :
    (∀ pre y m f : LC,
      y.length = 4 → y.all Char.isDigit = true →
      m.length = 2 → m.all Char.isDigit = true →
      f ≠ [] → '/' ∉ f →
      deriveId (pre ++ lc "/wp-content/uploads/" ++ y ++ '/' :: m ++ '/' :: f) =
        m ++ '/' :: stripOnce f) ∧
    (∀ url : LC, legacyParse url = none → deriveId url = stripOnce (lastSeg url)) := by
  constructor
  · intro pre y m f hy4 hyd hm2 hmd hf hsf
    have hurl : pre ++ lc "/wp-content/uploads/" ++ y ++ '/' :: m ++ '/' :: f =
        pre ++ '/' :: (lc "wp-content" ++ '/' ::
          (lc "uploads" ++ '/' :: (y ++ '/' :: (m ++ '/' :: f)))) := by
      have hlit : lc "/wp-content/uploads/" =
          '/' :: (lc "wp-content" ++ '/' :: (lc "uploads" ++ ['/'])) := by decide
      rw [hlit]
      simp [List.append_assoc]
    rw [hurl]
    have hsplit : splitChar '/' (pre ++ '/' :: (lc "wp-content" ++ '/' ::
        (lc "uploads" ++ '/' :: (y ++ '/' :: (m ++ '/' :: f))))) =
        splitChar '/' pre ++ [lc "wp-content", lc "uploads", y, m, f] := by
      rw [splitChar_append, splitChar_append, splitChar_append, splitChar_append,
          splitChar_append]
      rw [splitChar_no_sep '/' (lc "wp-content") (by decide),
          splitChar_no_sep '/' (lc "uploads") (by decide),
          splitChar_no_sep '/' y (not_slash_of_digits hyd),
          splitChar_no_sep '/' m (not_slash_of_digits hmd),
          splitChar_no_sep '/' f hsf]
      simp
    obtain ⟨q, qs, hq⟩ : ∃ q qs, (splitChar '/' pre).reverse = q :: qs := by
      have hne : (splitChar '/' pre).reverse ≠ [] := by
        simp [splitChar_ne_nil]
      exact List.exists_cons_of_ne_nil hne
    have hrev : (splitChar '/' (pre ++ '/' :: (lc "wp-content" ++ '/' ::
        (lc "uploads" ++ '/' :: (y ++ '/' :: (m ++ '/' :: f)))))).reverse =
        f :: m :: y :: lc "uploads" :: lc "wp-content" :: q :: qs := by
      rw [hsplit]
      simp [List.reverse_append, hq]
    have hlp : legacyParse (pre ++ '/' :: (lc "wp-content" ++ '/' ::
        (lc "uploads" ++ '/' :: (y ++ '/' :: (m ++ '/' :: f))))) = some (m, f) := by
      rw [legacyParse, hrev]
      exact if_pos ⟨hf, hm2, hmd, hy4, hyd, rfl, rfl⟩
    rw [deriveId, hlp]
  · intro url h
    rw [deriveId, h]

theorem c5_witness :
    deriveId (lc "https://host/wp-content/uploads/2021/07/cover.JPG") = lc "07/cover" ∧
    deriveId (lc "https://host/img/logo.png") = lc "logo" := by
  constructor
  · have h := c5_derive_shapes.1 (lc "https://host") (lc "2021") (lc "07") (lc "cover.JPG")
      (by decide) (by decide) (by decide) (by decide) (by decide) (by decide)
    have e1 : lc "https://host" ++ lc "/wp-content/uploads/" ++ lc "2021" ++ '/' ::
        lc "07" ++ '/' :: lc "cover.JPG" =
        lc "https://host/wp-content/uploads/2021/07/cover.JPG" := by decide
    have e2 : lc "07" ++ '/' :: stripOnce (lc "cover.JPG") = lc "07/cover" := by decide
    rw [e1, e2] at h
    exact h
  · have h := c5_derive_shapes.2 (lc "https://host/img/logo.png") (by decide)
    have e3 : stripOnce (lastSeg (lc "https://host/img/logo.png")) = lc "logo" := by decide
    rw [e3] at h
    exact h

/-! ## Claim C6 -/

theorem isPrefixOf_append_sep (sep : Char) :
    ∀ (p x yy : LC), sep ∉ p → p.isPrefixOf (x ++ sep :: yy) = p.isPrefixOf x := by
  intro p
  induction p with
  | nil => intro x yy _; simp [List.isPrefixOf]
  | cons a p' ih =>
    intro x yy h
    have ha : ¬ (a = sep) := fun hh => h (by rw [hh]; exact List.mem_cons_self _ _)
    have h' : sep ∉ p' := fun hh => h (List.mem_cons_of_mem _ hh)
    cases x with
    | nil =>
      have hb : (a == sep) = false := by
        rw [beq_eq_false_iff_ne]
        exact ha
      simp [List.isPrefixOf, hb]
    | cons x0 xt =>
      simp only [List.cons_append, List.isPrefixOf, List.append_eq]
      rw [ih xt yy h']

theorem endsWithL_slash (e A x : LC) (h : '/' ∉ e) :
    endsWithL e (A ++ '/' :: x) = endsWithL e x := by
  rw [endsWithL, endsWithL, List.reverse_append, List.reverse_cons, List.append_assoc,
    List.singleton_append]
  exact isPrefixOf_append_sep '/' e.reverse x.reverse A.reverse
    (by simpa [List.mem_reverse] using h)

theorem any_congr_mem {α : Type} (l : List α) (f g : α → Bool)
    (h : ∀ e ∈ l, f e = g e) : l.any f = l.any g := by
  induction l with
  | nil => rfl
  | cons e t ih =>
    rw [List.any_cons, List.any_cons, h e (List.mem_cons_self _ _),
      ih (fun e' he' => h e' (List.mem_cons_of_mem _ he'))]

theorem hasRecExt_slash (A x : LC) : hasRecExt (A ++ '/' :: x) = hasRecExt x := by
  rw [hasRecExt, hasRecExt]
  have hl : lowerL (A ++ '/' :: x) = lowerL A ++ '/' :: lowerL x := by
    have hsl : Char.toLower '/' = '/' := by decide
    simp [lowerL, hsl]
  rw [hl]
  refine any_congr_mem _ _ _ ?_
  intro e he
  refine endsWithL_slash e (lowerL A) (lowerL x) ?_
  have hmem : e = lc ".jpg" ∨ e = lc ".jpeg" ∨ e = lc ".png" ∨ e = lc ".gif" ∨
      e = lc ".webp" := by
    simpa [recExts, List.mem_cons, List.not_mem_nil] using he
  rcases hmem with rfl | rfl | rfl | rfl | rfl <;> decide

/-- C6 counterexample: the deriver strips only the final extension, so the
stacked filename `photo.jpg.png` yields the id `photo.jpg`, which still ends
in a recognized extension variant. -/
theorem c6_counterexample :
    hasRecExt (deriveId (lc "https://h/photo.jpg.png")) = true ∧
    deriveId (lc "https://h/photo.jpg.png") = lc "photo.jpg" := by decide

/-- C6 amended: the deriver strips exactly one trailing recognized extension
from the final path segment; the id is free of recognized extensions exactly
when the once-stripped final segment is — a stacked extension such as
`photo.jpg.png` survives as `photo.jpg`. -/
theorem c6_no_ext_survives (url : LC)
    (h : hasRecExt (stripOnce (lastSeg url)) = false) :
    hasRecExt (deriveId url) = false := by
  rw [deriveId]
  rcases hlp : legacyParse url with _ | ⟨m, f⟩
  · exact h
  · have hf : lastSeg url = f := by
      rw [legacyParse] at hlp
      rw [lastSeg]
      rcases hrev : (splitChar '/' url).reverse with _ | ⟨f0, rest1⟩
      · rw [hrev] at hlp; simp at hlp
      · rcases rest1 with _ | ⟨m0, rest2⟩
        · rw [hrev] at hlp; simp at hlp
        · rcases rest2 with _ | ⟨y0, rest3⟩
          · rw [hrev] at hlp; simp at hlp
          · rcases rest3 with _ | ⟨u0, rest4⟩
            · rw [hrev] at hlp; simp at hlp
            · rcases rest4 with _ | ⟨w0, rest5⟩
              · rw [hrev] at hlp; simp at hlp
              · rcases rest5 with _ | ⟨q0, rest6⟩
                · rw [hrev] at hlp; simp at hlp
                · rw [hrev] at hlp
                  dsimp only at hlp ⊢
                  split at hlp
                  · injection hlp with h2
                    rw [Prod.mk.injEq] at h2
                    exact h2.2
                  · exact absurd hlp (by simp)
    rw [hf] at h
    show hasRecExt (m ++ '/' :: stripOnce f) = false
    rw [hasRecExt_slash]
    exact h

theorem c6_witness :
    hasRecExt (stripOnce (lastSeg (lc "https://h/a.png"))) = false ∧
    hasRecExt (deriveId (lc "https://h/a.png")) = false :=
  ⟨by decide, c6_no_ext_survives (lc "https://h/a.png") (by decide)⟩

/-! ## Claim C7 -/

/-- C7: a document whose parsed metadata block already contains either
recognized featured-image key is skipped — `update_post` reports no update
and the resulting on-disk content is byte-identical to the input (no write
occurs), hence running update on an already-updated document is idempotent. -/
theorem c7_skip_idempotent (tb att : PyDict) (stem content : LC) (fm : FM) (body : LC)
    (hex : extract_front_matter content = (some fm, body))
    (hkey : fmHasKey fm featuredKey = true ∨ fmHasKey fm imageKey = true) :
    update_post tb att stem content = (false, content) := by
  rw [update_post, hex]
  by_cases he : fm.isEmpty
  · simp [he]
  · have hb : (fmHasKey fm featuredKey || fmHasKey fm imageKey) = true := by
      rcases hkey with h | h <;> simp [h]
    simp [he, hb]

theorem c7_witness :
    update_post [] [] (lc "p") (lc "---\ntitle: a\nimage: b\n---\nbody") =
      (false, lc "---\ntitle: a\nimage: b\n---\nbody") :=
  c7_skip_idempotent [] [] (lc "p") (lc "---\ntitle: a\nimage: b\n---\nbody")
    [(lc "title", lc "a"), (lc "image", lc "b")] (lc "body")
    (by decide) (Or.inr (by decide))

/-! ## Prefix and substring lemmas (for claim C8) -/

theorem isPrefixOf_self_append (p t : LC) : p.isPrefixOf (p ++ t) = true := by
  induction p with
  | nil => simp [List.isPrefixOf]
  | cons a p' ih => simp [List.isPrefixOf, ih]

theorem eq_append_of_isPrefixOf : ∀ {p s : LC}, p.isPrefixOf s = true →
    s = p ++ s.drop p.length := by
  intro p
  induction p with
  | nil => intro s _; simp
  | cons a p' ih =>
    intro s h
    cases s with
    | nil => simp [List.isPrefixOf] at h
    | cons b t =>
      rw [List.isPrefixOf, Bool.and_eq_true] at h
      obtain ⟨h1, h2⟩ := h
      have hab : a = b := eq_of_beq h1
      subst hab
      rw [List.length_cons, List.drop_succ_cons, List.cons_append]
      exact congrArg (a :: ·) (ih h2)

theorem isPrefixOf_extend : ∀ {p x : LC} (z : LC), p.isPrefixOf x = true →
    p.isPrefixOf (x ++ z) = true := by
  intro p
  induction p with
  | nil => intro x z _; simp [List.isPrefixOf]
  | cons a p' ih =>
    intro x z h
    cases x with
    | nil => simp [List.isPrefixOf] at h
    | cons b t =>
      rw [List.isPrefixOf, Bool.and_eq_true] at h
      rw [List.cons_append, List.isPrefixOf, Bool.and_eq_true]
      exact ⟨h.1, ih z h.2⟩

theorem splitAtSub_eq {p0 : Char} {pt : LC} :
    ∀ {s a b : LC}, splitAtSub (p0 :: pt) s = some (a, b) →
      s = a ++ (p0 :: pt) ++ b ∧ hasSubB (p0 :: pt) a = false := by
  intro s
  induction s with
  | nil =>
    intro a b h
    rw [splitAtSub] at h
    simp [List.isPrefixOf] at h
  | cons c rest ih =>
    intro a b h
    rw [splitAtSub] at h
    by_cases hpre : (p0 :: pt).isPrefixOf (c :: rest) = true
    · rw [if_pos hpre] at h
      injection h with h2
      rw [Prod.mk.injEq] at h2
      obtain ⟨ha, hb⟩ := h2
      subst ha
      subst hb
      constructor
      · simpa using eq_append_of_isPrefixOf hpre
      · rfl
    · rw [if_neg hpre] at h
      rcases hres : splitAtSub (p0 :: pt) rest with _ | ⟨a', b'⟩
      · rw [hres] at h; simp at h
      · rw [hres] at h
        simp only [Option.map_some'] at h
        injection h with h2
        rw [Prod.mk.injEq] at h2
        obtain ⟨ha, hb⟩ := h2
        obtain ⟨hrest, hsub⟩ := ih hres
        subst ha
        subst hb
        constructor
        · rw [hrest]
          simp [List.append_assoc]
        · rw [hasSubB, Bool.or_eq_false_iff]
          refine ⟨?_, hsub⟩
          rw [Bool.eq_false_iff]
          intro hcontra
          have hext := isPrefixOf_extend ((p0 :: pt) ++ b') hcontra
          have heq : (c :: a') ++ ((p0 :: pt) ++ b') = c :: rest := by
            rw [hrest]
            simp [List.cons_append, List.append_assoc]
          rw [heq] at hext
          exact absurd hext (by simpa using hpre)

theorem splitAtSub_key (v : LC) :
    ∀ (k : LC), hasSubB colonSp k = false →
      splitAtSub colonSp (k ++ colonSp ++ v) = some (k, v) := by
  have hc : colonSp = ':' :: ' ' :: [] := by decide
  intro k
  induction k with
  | nil =>
    intro _
    rw [hc]
    simp only [List.nil_append, List.cons_append]
    rw [splitAtSub]
    rw [if_pos (by simp [List.isPrefixOf])]
    simp
  | cons c k' ih =>
    intro hk
    rw [hc] at hk ⊢
    rw [hasSubB, Bool.or_eq_false_iff] at hk
    obtain ⟨hk1, hk2⟩ := hk
    simp only [List.cons_append]
    rw [splitAtSub]
    have hpre : ([':', ' '] : LC).isPrefixOf (c :: (k' ++ [':', ' '] ++ v)) = false := by
      cases k' with
      | nil =>
        rw [Bool.eq_false_iff]
        intro hcontra
        simp only [List.nil_append, List.cons_append] at hcontra
        rw [List.isPrefixOf, Bool.and_eq_true] at hcontra
        rw [List.isPrefixOf, Bool.and_eq_true] at hcontra
        exact absurd hcontra.2.1 (by decide)
      | cons d k'' =>
        rw [Bool.eq_false_iff]
        intro hcontra
        rw [List.cons_append, List.cons_append] at hcontra
        rw [List.isPrefixOf, Bool.and_eq_true] at hcontra
        rw [List.isPrefixOf, Bool.and_eq_true] at hcontra
        have : ([':', ' '] : LC).isPrefixOf (c :: d :: k'') = true := by
          rw [List.isPrefixOf, Bool.and_eq_true]
          refine ⟨hcontra.1, ?_⟩
          rw [List.isPrefixOf, Bool.and_eq_true]
          exact ⟨hcontra.2.1, by simp [List.isPrefixOf]⟩
        rw [this] at hk1
        exact Bool.true_eq_false ▸ hk1
    rw [hpre]
    simp only [Bool.false_eq_true, if_false]
    rw [hc] at ih
    rw [ih hk2]
    rfl

theorem splitChar_pieces (c : Char) : ∀ (l : LC) (p : LC), p ∈ splitChar c l → c ∉ p := by
  intro l
  induction l with
  | nil =>
    intro p hp
    rw [splitChar] at hp
    rw [List.mem_singleton] at hp
    subst hp
    simp
  | cons x xs ih =>
    intro p hp
    rcases h : splitChar c xs with _ | ⟨hh, tt⟩
    · exact absurd h (splitChar_ne_nil c xs)
    · rw [splitChar, h] at hp
      dsimp only at hp
      by_cases hx : x = c
      · rw [if_pos hx] at hp
        rcases List.mem_cons.mp hp with rfl | hp'
        · simp
        · exact ih p (h ▸ hp')
      · rw [if_neg hx] at hp
        rcases List.mem_cons.mp hp with rfl | hp'
        · intro hm
          rcases List.mem_cons.mp hm with rfl | hm'
          · exact hx rfl
          · exact ih hh (h ▸ List.mem_cons_self _ _) hm'
        · exact ih p (h ▸ List.mem_cons_of_mem _ hp')

theorem splitChar_cons_sep (c : Char) (xx : LC) :
    splitChar c (c :: xx) = [] :: splitChar c xx := by
  rcases h : splitChar c xx with _ | ⟨hh, tt⟩
  · exact absurd h (splitChar_ne_nil c xx)
  · rw [splitChar, h]
    simp

/-! ## Locating the closing fence (for claim C8) -/

theorem findSub_append_no_nl (l : LC) (hl : nlChar ∉ l) (s : LC) :
    findSub fmMarker (l ++ s) = (findSub fmMarker s).map (· + l.length) := by
  induction l with
  | nil => cases h : findSub fmMarker s <;> simp [h]
  | cons c l' ih =>
    have hc : ¬ (c = nlChar) := fun hh => hl (by rw [hh]; exact List.mem_cons_self _ _)
    have hl' : nlChar ∉ l' := fun hh => hl (List.mem_cons_of_mem _ hh)
    have hpre : fmMarker.isPrefixOf (c :: (l' ++ s)) = false := by
      have hm : fmMarker = nlChar :: (lc "---" ++ [nlChar]) := by decide
      rw [hm, List.isPrefixOf]
      have hb : (nlChar == c) = false := by
        rw [beq_eq_false_iff_ne]
        exact fun hh => hc hh.symm
      simp [hb]
    rw [List.cons_append, findSub, hpre]
    simp only [Bool.false_eq_true, if_false]
    rw [ih hl']
    cases h : findSub fmMarker s with
    | none => simp [h]
    | some n =>
      simp [h]
      omega

theorem marker_head_block (l : LC) (h1 : nlChar ∉ l) (h2 : l ≠ fmFence) (rest : LC) :
    fmMarker.isPrefixOf (nlChar :: (l ++ nlChar :: rest)) = false := by
  have hm : fmMarker = nlChar :: '-' :: '-' :: '-' :: [nlChar] := by decide
  have hdn : (('-' : Char) == nlChar) = false := by decide
  rcases l with _ | ⟨a, _ | ⟨b, _ | ⟨c, _ | ⟨d, l'⟩⟩⟩⟩
  · rw [hm]
    simp [List.isPrefixOf, hdn]
  · rw [hm]
    simp [List.isPrefixOf, hdn]
  · rw [hm]
    simp [List.isPrefixOf, hdn]
  · rw [hm, Bool.eq_false_iff]
    intro hcontra
    simp only [List.cons_append, List.nil_append, List.isPrefixOf,
      Bool.and_eq_true, beq_iff_eq] at hcontra
    refine h2 ?_
    obtain ⟨-, ha, hb, hc, -⟩ := hcontra
    rw [← ha, ← hb, ← hc]
    decide
  · rw [hm, Bool.eq_false_iff]
    intro hcontra
    simp only [List.cons_append, List.isPrefixOf, Bool.and_eq_true, beq_iff_eq] at hcontra
    obtain ⟨-, -, -, -, hd, -⟩ := hcontra
    exact h1 (by rw [hd]; exact List.mem_cons_of_mem _ (List.mem_cons_of_mem _
      (List.mem_cons_of_mem _ (List.mem_cons_self _ _))))

theorem findSub_dump : ∀ (ls : List LC),
    (∀ l ∈ ls, nlChar ∉ l ∧ l ≠ fmFence) → ∀ (tail : LC),
      findSub fmMarker (nlChar :: (joinNL ls ++ (fmFence ++ nlChar :: tail))) =
        some (joinNL ls).length := by
  intro ls
  induction ls with
  | nil =>
    intro _ tail
    have hpre : fmMarker.isPrefixOf (nlChar :: (fmFence ++ nlChar :: tail)) = true := by
      have hm : fmMarker = nlChar :: (fmFence ++ [nlChar]) := by decide
      rw [hm]
      have hsa := isPrefixOf_self_append (nlChar :: (fmFence ++ [nlChar])) tail
      rw [List.cons_append, List.append_assoc, List.singleton_append] at hsa
      exact hsa
    rw [show joinNL [] = ([] : LC) from rfl]
    rw [List.nil_append, findSub, hpre]
    simp
  | cons l ls' ih =>
    intro h tail
    obtain ⟨hl1, hl2⟩ := h l (List.mem_cons_self _ _)
    have h' := fun l' hl' => h l' (List.mem_cons_of_mem _ hl')
    have hs : joinNL (l :: ls') ++ (fmFence ++ nlChar :: tail) =
        l ++ nlChar :: (joinNL ls' ++ (fmFence ++ nlChar :: tail)) := by
      rw [show joinNL (l :: ls') = l ++ nlChar :: joinNL ls' from rfl]
      simp [List.append_assoc]
    rw [hs, findSub,
      marker_head_block l hl1 hl2 (joinNL ls' ++ (fmFence ++ nlChar :: tail))]
    simp only [Bool.false_eq_true, if_false]
    rw [findSub_append_no_nl l hl1, show nlChar :: (joinNL ls' ++ (fmFence ++ nlChar :: tail)) = nlChar :: (joinNL ls' ++ (fmFence ++ nlChar :: tail)) from rfl]
    rw [show findSub fmMarker (nlChar :: (joinNL ls' ++ (fmFence ++ nlChar :: tail))) = some (joinNL ls').length from ih h' tail]
    rw [show joinNL (l :: ls') = l ++ nlChar :: joinNL ls' from rfl]
    simp [List.length_append]
    omega

/-! ## Reassembling the rewritten block (for claim C8) -/

theorem take_append_left : ∀ (a b : LC) (n : Nat),
    (a ++ b).take (a.length + n) = a ++ b.take n := by
  intro a
  induction a with
  | nil => intro b n; simp
  | cons x a' ih =>
    intro b n
    rw [List.cons_append, List.length_cons]
    rw [show a'.length + 1 + n = (a'.length + n) + 1 from by omega]
    rw [List.take_succ_cons, ih, List.cons_append]

theorem drop_append_left : ∀ (a b : LC) (n : Nat),
    (a ++ b).drop (a.length + n) = b.drop n := by
  intro a
  induction a with
  | nil => intro b n; simp
  | cons x a' ih =>
    intro b n
    rw [List.cons_append, List.length_cons]
    rw [show a'.length + 1 + n = (a'.length + n) + 1 from by omega]
    rw [List.drop_succ_cons, ih]

theorem joinNL_cons (l : LC) (ls : List LC) :
    joinNL (l :: ls) = l ++ nlChar :: joinNL ls := rfl

theorem joinNL_length_pos (l : LC) (ls : List LC) : 0 < (joinNL (l :: ls)).length := by
  rw [joinNL_cons]
  simp

theorem take_joinNL : ∀ (ls : List LC), ls ≠ [] →
    (joinNL ls).take ((joinNL ls).length - 1) = interNL ls := by
  intro ls
  induction ls with
  | nil => intro h; exact absurd rfl h
  | cons l ls' ih =>
    intro _
    cases ls' with
    | nil =>
      rw [show joinNL [l] = l ++ [nlChar] from rfl, show interNL [l] = l from rfl]
      rw [List.length_append]
      simp
    | cons l2 ls'' =>
      rw [joinNL_cons]
      rw [show interNL (l :: l2 :: ls'') = l ++ nlChar :: interNL (l2 :: ls'') from rfl]
      have hpos : 0 < (joinNL (l2 :: ls'')).length := joinNL_length_pos _ _
      rw [List.length_append, List.length_cons]
      rw [show l.length + ((joinNL (l2 :: ls'')).length + 1) - 1 =
          l.length + (joinNL (l2 :: ls'')).length from by omega]
      rw [take_append_left]
      rw [show (joinNL (l2 :: ls'')).length =
          ((joinNL (l2 :: ls'')).length - 1) + 1 from by omega]
      rw [List.take_succ_cons]
      rw [ih (by simp)]

theorem splitChar_interNL : ∀ (ls : List LC), ls ≠ [] → (∀ l ∈ ls, nlChar ∉ l) →
    splitChar nlChar (interNL ls) = ls := by
  intro ls
  induction ls with
  | nil => intro h _; exact absurd rfl h
  | cons l ls' ih =>
    intro _ h
    cases ls' with
    | nil => exact splitChar_no_sep _ _ (h l (List.mem_cons_self _ _))
    | cons l2 ls'' =>
      rw [show interNL (l :: l2 :: ls'') = l ++ nlChar :: interNL (l2 :: ls'') from rfl]
      rw [splitChar_append, splitChar_no_sep _ _ (h l (List.mem_cons_self _ _))]
      rw [ih (by simp) (fun l' hl' => h l' (List.mem_cons_of_mem _ hl'))]
      rfl

theorem lineOf_isEmpty (e : LC × LC) : (lineOf e).isEmpty = false := by
  rw [lineOf]
  rcases e1 : e.1 with _ | ⟨c, t⟩
  · rw [show colonSp = ':' :: [' '] from by decide]
    simp
  · simp

/-! ## Parsing the rewritten block (for claim C8) -/

theorem key_not_mem_left {d : FM} {e : LC × LC} {fm' : FM}
    (h : ((d ++ e :: fm').map Prod.fst).Nodup) : ∀ e' ∈ d, e'.1 ≠ e.1 := by
  intro e' he' hcontra
  rw [List.map_append, List.nodup_append] at h
  obtain ⟨-, -, hdisj⟩ := h
  exact hdisj (List.mem_map.mpr ⟨e', he', rfl⟩)
    (by rw [List.map_cons, hcontra]; exact List.mem_cons_self _ _)

theorem parse_fold_append : ∀ (fm2 : FM) (d : FM),
    (∀ e ∈ fm2, hasSubB colonSp e.1 = false) →
    ((d ++ fm2).map Prod.fst).Nodup →
    List.foldlM (fun d line =>
        if line.isEmpty then some d
        else (splitAtSub colonSp line).map (fun p => dinsert p.1 p.2 d))
      d (fm2.map lineOf) = some (d ++ fm2) := by
  intro fm2
  induction fm2 with
  | nil => intro d _ _; simp
  | cons e fm' ih =>
    intro d hk hnd
    rw [List.map_cons, List.foldlM_cons, lineOf_isEmpty e]
    simp only [Bool.false_eq_true, if_false]
    rw [show lineOf e = e.1 ++ colonSp ++ e.2 from rfl]
    rw [splitAtSub_key e.2 e.1 (hk e (List.mem_cons_self _ _))]
    simp only [Option.map_some']
    have hd : dinsert e.1 e.2 d = d ++ [e] := by
      rw [dinsert_of_not_mem e.2 (key_not_mem_left hnd)]
    have hnd' : (((d ++ [e]) ++ fm').map Prod.fst).Nodup := by
      rw [List.append_assoc]
      simpa using hnd
    rw [show (some (dinsert e.1 e.2 d) >>= fun d' =>
        List.foldlM (fun d line =>
          if line.isEmpty then some d
          else (splitAtSub colonSp line).map (fun p => dinsert p.1 p.2 d))
          d' (fm'.map lineOf)) =
        List.foldlM (fun d line =>
          if line.isEmpty then some d
          else (splitAtSub colonSp line).map (fun p => dinsert p.1 p.2 d))
          (dinsert e.1 e.2 d) (fm'.map lineOf) from rfl]
    rw [hd, ih (d ++ [e]) (fun e' he' => hk e' (List.mem_cons_of_mem _ he')) hnd']
    rw [List.append_assoc]
    simp

theorem parse_fold_wf : ∀ (lines : List LC), (∀ l ∈ lines, nlChar ∉ l) →
    ∀ (d fm : FM),
    (∀ e ∈ d, nlChar ∉ e.1 ∧ nlChar ∉ e.2 ∧ hasSubB colonSp e.1 = false) →
    List.foldlM (fun d line =>
        if line.isEmpty then some d
        else (splitAtSub colonSp line).map (fun p => dinsert p.1 p.2 d))
      d lines = some fm →
    ∀ e ∈ fm, nlChar ∉ e.1 ∧ nlChar ∉ e.2 ∧ hasSubB colonSp e.1 = false := by
  intro lines
  induction lines with
  | nil =>
    intro _ d fm hd h
    rw [List.foldlM_nil] at h
    injection h with h2
    subst h2
    exact hd
  | cons line rest ih =>
    intro hl d fm hd h
    have hlrest := fun l' hl' => hl l' (List.mem_cons_of_mem _ hl')
    rw [List.foldlM_cons] at h
    by_cases he : line.isEmpty = true
    · rw [he] at h
      simp only [if_true] at h
      exact ih hlrest d fm hd (by simpa using h)
    · rw [Bool.not_eq_true] at he
      rw [he] at h
      simp only [Bool.false_eq_true, if_false] at h
      rcases hsp : splitAtSub colonSp line with _ | ⟨a, b⟩
      · rw [hsp] at h
        simp at h
      · rw [hsp] at h
        simp only [Option.map_some'] at h
        rw [show colonSp = ':' :: [' '] from by decide] at hsp
        obtain ⟨hline, hsuba⟩ := splitAtSub_eq hsp
        have hnla : nlChar ∉ a := fun hm =>
          hl line (List.mem_cons_self _ _) (by
            rw [hline]
            exact List.mem_append.mpr (Or.inl (List.mem_append.mpr (Or.inl hm))))
        have hnlb : nlChar ∉ b := fun hm =>
          hl line (List.mem_cons_self _ _) (by
            rw [hline]
            exact List.mem_append.mpr (Or.inr hm))
        refine ih hlrest (dinsert a b d) fm ?_ (by simpa using h)
        intro e' he'
        rcases mem_dinsert he' with rfl | he''
        · exact ⟨hnla, hnlb, by rw [show (':' :: [' '] : LC) = colonSp from by decide] at hsuba; exact hsuba⟩
        · exact hd e' he''

theorem parse_fold_nodup : ∀ (lines : List LC) (d fm : FM),
    (d.map Prod.fst).Nodup →
    List.foldlM (fun d line =>
        if line.isEmpty then some d
        else (splitAtSub colonSp line).map (fun p => dinsert p.1 p.2 d))
      d lines = some fm →
    (fm.map Prod.fst).Nodup := by
  intro lines
  induction lines with
  | nil =>
    intro d fm hd h
    rw [List.foldlM_nil] at h
    injection h with h2
    subst h2
    exact hd
  | cons line rest ih =>
    intro d fm hd h
    rw [List.foldlM_cons] at h
    by_cases he : line.isEmpty = true
    · rw [he] at h
      simp only [if_true] at h
      exact ih d fm hd (by simpa using h)
    · rw [Bool.not_eq_true] at he
      rw [he] at h
      simp only [Bool.false_eq_true, if_false] at h
      rcases hsp : splitAtSub colonSp line with _ | ⟨a, b⟩
      · rw [hsp] at h
        simp at h
      · rw [hsp] at h
        simp only [Option.map_some'] at h
        exact ih (dinsert a b d) fm (nodupKeys_dinsert a b d hd) (by simpa using h)

theorem extract_props {content : LC} {fm : FM} {body : LC}
    (h : extract_front_matter content = (some fm, body)) :
    (∀ e ∈ fm, nlChar ∉ e.1 ∧ nlChar ∉ e.2 ∧ hasSubB colonSp e.1 = false) ∧
    (fm.map Prod.fst).Nodup := by
  rw [extract_front_matter] at h
  by_cases h1 : fmFence.isPrefixOf content = true
  · rw [if_pos h1] at h
    dsimp only at h
    rcases h2 : findSub fmMarker (content.drop 3) with _ | ⟨i⟩
    · rw [h2] at h
      simp at h
    · rw [h2] at h
      dsimp only at h
      rcases h3 : parseYaml ((content.drop 3).take i) with _ | ⟨fm'⟩
      · rw [h3] at h
        simp at h
      · rw [h3] at h
        rw [Prod.mk.injEq] at h
        obtain ⟨hfm, -⟩ := h
        injection hfm with hfm2
        subst hfm2
        rw [parseYaml] at h3
        have hlines : ∀ l ∈ splitChar nlChar ((content.drop 3).take i), nlChar ∉ l :=
          fun l hl => splitChar_pieces nlChar _ l hl
        exact ⟨parse_fold_wf _ hlines [] fm' (by simp) h3,
          parse_fold_nodup _ [] fm' (by simp) h3⟩
  · rw [if_neg h1] at h
    simp at h

theorem take_append_le : ∀ (a b : LC) (n : Nat), n ≤ a.length →
    (a ++ b).take n = a.take n := by
  intro a
  induction a with
  | nil =>
    intro b n h
    have h0 : n = 0 := Nat.le_zero.mp (by simpa using h)
    subst h0
    simp
  | cons x a' ih =>
    intro b n h
    cases n with
    | zero => simp
    | succ n' =>
      rw [List.cons_append, List.take_succ_cons, List.take_succ_cons,
        ih b n' (Nat.succ_le_succ_iff.mp (by simpa using h))]

/-- C8: on the update path, the rewritten document re-parses to the original
metadata entries in their original order with the derived id appended under
the primary `featured_image` key, and the body is byte-identical.  (The
newline-freedom hypothesis on the derived id is the side condition of the
flat-scalar model of the YAML dump.) -/
theorem c8_update_frame (tb att : PyDict) (stem content : LC) (fm : FM)
    (body url : LC)
    (hex : extract_front_matter content = (some fm, body))
    (hne : fm ≠ [])
    (hk1 : fmHasKey fm featuredKey = false)
    (hk2 : fmHasKey fm imageKey = false)
    (hres : get_thumbnail_url tb att (slugOf stem) (fmGetD fm titleKey []) = some url)
    (hurl : url ≠ [])
    (hnl : nlChar ∉ deriveId url) :
    update_post tb att stem content =
      (true, fmFence ++ nlChar :: dumpYaml (fm ++ [(featuredKey, deriveId url)]) ++
        fmFence ++ [nlChar] ++ body) ∧
    extract_front_matter (fmFence ++ nlChar ::
        dumpYaml (fm ++ [(featuredKey, deriveId url)]) ++ fmFence ++ [nlChar] ++ body) =
      (some (fm ++ [(featuredKey, deriveId url)]), body) := by
  have hkeys : ∀ e ∈ fm, e.1 ≠ featuredKey := by
    intro e he hcontra
    have ht : fmHasKey fm featuredKey = true := by
      rw [fmHasKey, List.any_eq_true]
      exact ⟨e, he, by simp [hcontra]⟩
    rw [ht] at hk1
    exact absurd hk1 (by decide)
  have hdins : dinsert featuredKey (deriveId url) fm =
      fm ++ [(featuredKey, deriveId url)] := dinsert_of_not_mem _ hkeys
  have hupd : update_post tb att stem content =
      (true, fmFence ++ nlChar :: dumpYaml (fm ++ [(featuredKey, deriveId url)]) ++
        fmFence ++ [nlChar] ++ body) := by
    rw [update_post, hex]
    dsimp only
    have hie : fm.isEmpty = false := by
      rcases fm with _ | ⟨e0, fm0⟩
      · exact absurd rfl hne
      · rfl
    rw [hie]
    simp only [Bool.false_eq_true, if_false]
    rw [hk1, hk2]
    simp only [Bool.or_self, Bool.false_eq_true, if_false]
    rw [hres]
    dsimp only
    have hue : url.isEmpty = false := by
      rcases url with _ | ⟨c, t⟩
      · exact absurd rfl hurl
      · rfl
    rw [hue]
    simp only [Bool.false_eq_true, if_false]
    rw [hdins]
  refine ⟨hupd, ?_⟩
  have hwf := (extract_props hex).1
  have hnd := (extract_props hex).2
  have hwf2 : ∀ e ∈ fm ++ [(featuredKey, deriveId url)],
      nlChar ∉ e.1 ∧ nlChar ∉ e.2 ∧ hasSubB colonSp e.1 = false := by
    intro e he
    rcases List.mem_append.mp he with hin | hin
    · exact hwf e hin
    · rw [List.mem_singleton] at hin
      subst hin
      refine ⟨?_, ?_, ?_⟩
      · show nlChar ∉ featuredKey
        decide
      · show nlChar ∉ deriveId url
        exact hnl
      · show hasSubB colonSp featuredKey = false
        decide
  have hnd2 : ((fm ++ [(featuredKey, deriveId url)]).map Prod.fst).Nodup := by
    rw [List.map_append, List.nodup_append]
    refine ⟨hnd, by simp, ?_⟩
    intro x hx hx2
    simp only [List.map_cons, List.map_nil, List.mem_singleton] at hx2
    rcases List.mem_map.mp hx with ⟨e, he, hxe⟩
    exact hkeys e he (hxe.trans hx2)
  have hlines_wf : ∀ l ∈ (fm ++ [(featuredKey, deriveId url)]).map lineOf,
      nlChar ∉ l ∧ l ≠ fmFence := by
    intro l hl
    rcases List.mem_map.mp hl with ⟨e, he, rfl⟩
    obtain ⟨h1, h2, -⟩ := hwf2 e he
    constructor
    · intro hm
      rw [lineOf] at hm
      rcases List.mem_append.mp hm with hm1 | hm1
      · rcases List.mem_append.mp hm1 with hm2 | hm2
        · exact h1 hm2
        · exact absurd hm2 (by decide)
      · exact h2 hm1
    · intro hcontra
      have hcolon : ':' ∈ lineOf e := by
        rw [lineOf]
        refine List.mem_append.mpr (Or.inl (List.mem_append.mpr (Or.inr ?_)))
        decide
      rw [hcontra] at hcolon
      exact absurd hcolon (by decide)
  have hlne : (fm ++ [(featuredKey, deriveId url)]).map lineOf ≠ [] := by
    simp
  have hLpos : 0 < (joinNL ((fm ++ [(featuredKey, deriveId url)]).map lineOf)).length := by
    rcases hml : (fm ++ [(featuredKey, deriveId url)]).map lineOf with _ | ⟨l0, ls0⟩
    · exact absurd hml hlne
    · exact joinNL_length_pos _ _
  have hmarker := findSub_dump ((fm ++ [(featuredKey, deriveId url)]).map lineOf)
    hlines_wf body
  have hnc : fmFence ++ nlChar :: dumpYaml (fm ++ [(featuredKey, deriveId url)]) ++
      fmFence ++ [nlChar] ++ body =
      fmFence ++ (nlChar :: (joinNL ((fm ++ [(featuredKey, deriveId url)]).map lineOf) ++
        (fmFence ++ nlChar :: body))) := by
    rw [show dumpYaml (fm ++ [(featuredKey, deriveId url)]) =
        joinNL ((fm ++ [(featuredKey, deriveId url)]).map lineOf) from rfl]
    simp [List.append_assoc]
  rw [hnc, extract_front_matter]
  rw [if_pos (isPrefixOf_self_append fmFence _)]
  dsimp only
  have hdrop3 : (fmFence ++ (nlChar ::
      (joinNL ((fm ++ [(featuredKey, deriveId url)]).map lineOf) ++
        (fmFence ++ nlChar :: body)))).drop 3 =
      nlChar :: (joinNL ((fm ++ [(featuredKey, deriveId url)]).map lineOf) ++
        (fmFence ++ nlChar :: body)) := by
    rw [show (3 : Nat) = fmFence.length from by decide]
    exact List.drop_left _ _
  rw [hdrop3, hmarker]
  dsimp only
  have htake : (nlChar :: (joinNL ((fm ++ [(featuredKey, deriveId url)]).map lineOf) ++
      (fmFence ++ nlChar :: body))).take
        (joinNL ((fm ++ [(featuredKey, deriveId url)]).map lineOf)).length =
      nlChar :: interNL ((fm ++ [(featuredKey, deriveId url)]).map lineOf) := by
    rw [show (joinNL ((fm ++ [(featuredKey, deriveId url)]).map lineOf)).length =
        ((joinNL ((fm ++ [(featuredKey, deriveId url)]).map lineOf)).length - 1) + 1
        from by omega]
    rw [List.take_succ_cons]
    rw [take_append_le _ _ _ (by omega)]
    rw [take_joinNL _ hlne]
  rw [htake]
  have hparse : parseYaml (nlChar ::
      interNL ((fm ++ [(featuredKey, deriveId url)]).map lineOf)) =
      some (fm ++ [(featuredKey, deriveId url)]) := by
    rw [parseYaml, splitChar_cons_sep,
      splitChar_interNL _ hlne (fun l hl => (hlines_wf l hl).1)]
    have hfold := parse_fold_append (fm ++ [(featuredKey, deriveId url)]) []
      (fun e he => (hwf2 e he).2.2) (by simpa using hnd2)
    simpa using hfold
  rw [hparse]
  dsimp only
  have hdropF : (nlChar :: (joinNL ((fm ++ [(featuredKey, deriveId url)]).map lineOf) ++
      (fmFence ++ nlChar :: body))).drop
        ((joinNL ((fm ++ [(featuredKey, deriveId url)]).map lineOf)).length + 5) = body := by
    rw [show (joinNL ((fm ++ [(featuredKey, deriveId url)]).map lineOf)).length + 5 =
        ((joinNL ((fm ++ [(featuredKey, deriveId url)]).map lineOf)).length + 4) + 1
        from by omega]
    rw [List.drop_succ_cons, drop_append_left]
    rw [show fmFence = ['-', '-', '-'] from by decide]
    rfl
  rw [hdropF]

theorem c8_witness :
    update_post [(some (lc "launch-day"), some (lc "42"))]
        [(some (lc "42"), some (lc "https://x/wp-content/uploads/2022/03/hero.png"))]
        (lc "2022-03-01-launch-day") (lc "---\ntitle: Launch\n---\nBody text") =
      (true, fmFence ++ nlChar :: dumpYaml ([(lc "title", lc "Launch")] ++
        [(featuredKey, deriveId (lc "https://x/wp-content/uploads/2022/03/hero.png"))]) ++
        fmFence ++ [nlChar] ++ lc "Body text") ∧
    extract_front_matter (fmFence ++ nlChar ::
        dumpYaml ([(lc "title", lc "Launch")] ++
          [(featuredKey, deriveId (lc "https://x/wp-content/uploads/2022/03/hero.png"))]) ++
        fmFence ++ [nlChar] ++ lc "Body text") =
      (some ([(lc "title", lc "Launch")] ++
        [(featuredKey, deriveId (lc "https://x/wp-content/uploads/2022/03/hero.png"))]),
       lc "Body text") :=
  c8_update_frame [(some (lc "launch-day"), some (lc "42"))]
    [(some (lc "42"), some (lc "https://x/wp-content/uploads/2022/03/hero.png"))]
    (lc "2022-03-01-launch-day") (lc "---\ntitle: Launch\n---\nBody text")
    [(lc "title", lc "Launch")] (lc "Body text")
    (lc "https://x/wp-content/uploads/2022/03/hero.png")
    (by decide) (by decide) (by decide) (by decide) (by decide) (by decide) (by decide)
